import Mathlib

/-!
Shallow embedding of the string-buffer module (`src/str.c`) and the
command-line options parser (`src/options.c`) of c-chess-cli, together with
proofs of the specified properties.

Modelling conventions:
* A machine byte is a `Nat`; a C string (`const char *`) is the `List Nat` of
  its bytes strictly before the terminating 0, hence a null-free list.
* The heap block owned by a `str_t` is a `List Nat` whose length is exactly
  the allocation size; the unspecified contents of freshly (re)allocated
  memory are modelled by the concrete junk byte 170 (0xAA), which every
  caller overwrites before it can be observed.
* `size_t` arithmetic is modelled on `Nat`; `sizeof(size_t)` is 8 bytes.
* `assert` conditions that hold under the stated hypotheses are dropped; the
  reachable `assert(false)` in the format engine and the parser assert are
  modelled as explicit failure values, matching abort semantics.
-/

namespace CChessCli

/-- Bytes in a machine word: `sizeof(size_t)` on the 64-bit targets the
program is built for. -/
def sizeofSizeT : Nat := 8

/-- Junk byte standing for the unspecified contents of uninitialised
memory. -/
def junk : Nat := 170

/-- Loop of `str_round_up`: double `p2` until it reaches `n`.  The
structural `fuel` argument is a translation artifact for the C while loop:
the caller passes enough fuel that the loop condition fails first, so the
fuel-exhausted branch is unreachable. -/
def str_round_up_go (fuel : Nat) (p2 n : Nat) : Nat :=
  match fuel with
  | 0 => p2
  | fuel + 1 => if p2 < n then str_round_up_go fuel (2 * p2) n else p2

/-- Model of `str_round_up` (src/str.c:24): round to the next power of 2, at
least the size of 2 machine words.  Fuel `n` suffices because the counter at
least doubles from `2 * sizeofSizeT` each iteration. -/
def str_round_up (n : Nat) : Nat := str_round_up_go n (2 * sizeofSizeT) n

/-- Model of `str_t` (src/str.h): `buf` is the owned heap block, of length
exactly `alloc`. -/
structure str_t where
  len : Nat
  alloc : Nat
  buf : List Nat
deriving DecidableEq, Repr

/-- Model of `str_ok` (src/str.c:52): allocation is large enough, the block
really has `alloc` bytes (the `s->buf` non-null check), the terminator sits
at `len`, and no byte before `len` is 0. -/
def str_ok (s : str_t) : Prop :=
  str_round_up (s.len + 1) ≤ s.alloc ∧ s.buf.length = s.alloc ∧
    s.buf.getD s.len 1 = 0 ∧ 0 ∉ s.buf.take s.len

instance (s : str_t) : Decidable (str_ok s) := by
  unfold str_ok; infer_instance

/-- Logical content of a buffer: the bytes before the terminator. -/
def content (s : str_t) : List Nat := s.buf.take s.len

/-- Model of `memcpy(&buf[off], src, src.length)`: splice `src` into the
block at offset `off`. -/
def memcpyAt (buf : List Nat) (off : Nat) (src : List Nat) : List Nat :=
  buf.take off ++ src ++ buf.drop (off + src.length)

/-- Model of `realloc(buf, newSize)`: contents preserved up to the old size,
fresh bytes unspecified. -/
def reallocList (buf : List Nat) (newSize : Nat) : List Nat :=
  buf.take newSize ++ List.replicate (newSize - buf.length) junk

/-- Model of the internal `str_resize` (src/str.c:35): set `len`, grow the
allocation lazily, and write the terminator at the new length. -/
def str_resize (s : str_t) (len : Nat) : str_t :=
  let alloc' := if s.alloc < str_round_up (len + 1) then str_round_up (len + 1) else s.alloc
  let buf' := if s.alloc < str_round_up (len + 1) then reallocList s.buf (str_round_up (len + 1)) else s.buf
  { len := len, alloc := alloc', buf := buf'.set len 0 }

/-- Model of `str_new` (src/str.c:64). -/
def str_new : str_t :=
  let alloc := str_round_up 1
  { len := 0, alloc := alloc, buf := (List.replicate alloc junk).set 0 0 }

/-- Model of `str_dup` (src/str.c:77): duplicate a C string (given as its
null-free byte list). -/
def str_dup (src : List Nat) : str_t :=
  let len := src.length
  let alloc := str_round_up (len + 1)
  { len := len, alloc := alloc,
    buf := memcpyAt (List.replicate alloc junk) 0 (src ++ [0]) }

/-- Model of `str_del` (src/str.c:91): free the block and zero the handle. -/
def str_del (_s : str_t) : str_t :=
  { len := 0, alloc := 0, buf := [] }

/-- Model of `str_eq` (src/str.c:58). -/
def str_eq (s1 s2 : str_t) : Prop :=
  s1.len = s2.len ∧ s1.buf.take s1.len = s2.buf.take s1.len

/-- Model of `do_str_cpy` (src/str.c:97): `mem` is the byte region the
source pointer designates; `memcpy` reads its first `n + 1` bytes. -/
def do_str_cpy (dest : str_t) (mem : List Nat) (n : Nat) : str_t :=
  let d := str_resize dest n
  { d with buf := memcpyAt d.buf 0 (mem.take (n + 1)) }

/-- Model of `str_cpy` (src/str.c:103): the source region is the C string's
bytes followed by its terminator. -/
def str_cpy (dest : str_t) (src : List Nat) : str_t :=
  do_str_cpy dest (src ++ [0]) src.length

/-- Model of `str_cpy_s` (src/str.c:110). -/
def str_cpy_s (dest : str_t) (src : str_t) : str_t :=
  do_str_cpy dest src.buf src.len

/-- Model of `str_ncpy` (src/str.c:117). -/
def str_ncpy (dest : str_t) (src : List Nat) (n : Nat) : str_t :=
  let m := if src.length < n then src.length else n
  let d := do_str_cpy dest (src ++ [0]) m
  { d with buf := d.buf.set m 0 }

/-- One iteration of the `_str_putc` loop (src/str.c:130). -/
def str_putc1 (dest : str_t) (c : Nat) : str_t :=
  let d := str_resize dest (dest.len + 1)
  { d with buf := d.buf.set (d.len - 1) c }

/-- Model of `_str_putc` (src/str.c:130): the variadic argument run up to
the 0 sentinel, which stops the loop. -/
def _str_putc (dest : str_t) (cs : List Nat) : str_t :=
  (cs.takeWhile (· ≠ 0)).foldl str_putc1 dest

/-- Model of the `str_putc` macro: `_str_putc(dest, c, 0)`. -/
def str_putc (dest : str_t) (c : Nat) : str_t := _str_putc dest [c]

/-- Model of `do_str_cat` (src/str.c:148): append the first `n` bytes of the
region `mem`. -/
def do_str_cat (dest : str_t) (mem : List Nat) (n : Nat) : str_t :=
  let oldLen := dest.len
  let d := str_resize dest (oldLen + n)
  { d with buf := memcpyAt d.buf oldLen (mem.take n) }

/-- Model of `str_ncat` (src/str.c:155). -/
def str_ncat (dest : str_t) (src : List Nat) (n : Nat) : str_t :=
  let m := if src.length < n then src.length else n
  do_str_cat dest src m

/-- One iteration of the `_str_cat` loop: append a whole C string. -/
def str_cat_one (dest : str_t) (src : List Nat) : str_t :=
  do_str_cat dest src src.length

/-- Model of `_str_cat` (src/str.c:167): the variadic C-string arguments up
to the NULL sentinel, as a list. -/
def _str_cat (dest : str_t) (frags : List (List Nat)) : str_t :=
  frags.foldl str_cat_one dest

/-- Model of the `str_cat` macro: `_str_cat(dest, s, NULL)`. -/
def str_cat (dest : str_t) (src : List Nat) : str_t := _str_cat dest [src]

/-- One iteration of the `_str_cat_s` loop: append a buffer's content. -/
def str_cat_s_one (dest : str_t) (src : str_t) : str_t :=
  do_str_cat dest src.buf src.len

/-- Model of `_str_cat_s` (src/str.c:186). -/
def _str_cat_s (dest : str_t) (frags : List str_t) : str_t :=
  frags.foldl str_cat_s_one dest

/-- Model of the `str_cat_s` macro: `_str_cat_s(dest, s, NULL)`. -/
def str_cat_s (dest : str_t) (src : str_t) : str_t := _str_cat_s dest [src]

/-- One fragment of an append call: a raw C string or a buffer reference
(spec §4.4). -/
inductive Fragment where
  | raw (bytes : List Nat)
  | ref (s : str_t)
deriving DecidableEq, Repr

/-- Bytes a fragment contributes. -/
def Fragment.bytes : Fragment → List Nat
  | .raw b => b
  | .ref s => content s

/-- Appending one fragment dispatches to the corresponding C path. -/
def cat_fragment (dest : str_t) : Fragment → str_t
  | .raw b => str_cat_one dest b
  | .ref s => str_cat_s_one dest s

/-- The spec's `append(dest, fragments...)`: left-to-right over the
fragments, each handled by `_str_cat` / `_str_cat_s` code. -/
def str_append (dest : str_t) (frags : List Fragment) : str_t :=
  frags.foldl cat_fragment dest

/-- Low-to-high decimal digit bytes written by the do-while loop of
`do_fmt_u` (src/str.c:205).  Structural fuel: the quotient chain of `n`
under division by 10 is strictly decreasing, so fuel `n + 1` is never
exhausted. -/
def fmt_u_go (fuel n : Nat) : List Nat :=
  match fuel with
  | 0 => []
  | fuel + 1 =>
    if n / 10 = 0 then [48 + n % 10] else (48 + n % 10) :: fmt_u_go fuel (n / 10)

/-- Model of `do_fmt_u` (src/str.c:205): the digit run it leaves in the
scratch buffer, most significant first. -/
def do_fmt_u (n : Nat) : List Nat := (fmt_u_go (n + 1) n).reverse

/-- Rendering of a signed integer in `str_cat_fmt`: digits of the absolute
value, with 45 (the minus sign) prepended when negative. -/
def int_repr (n : Int) : List Nat :=
  if n < 0 then 45 :: do_fmt_u n.natAbs else do_fmt_u n.natAbs

/-- One variadic argument to `str_cat_fmt`, tagged with the C type
`va_arg` would extract. -/
inductive FmtArg where
  | s (cs : List Nat)
  | S (str : str_t)
  | i (n : Int)
  | I (n : Int)
  | u (n : Nat)
  | U (n : Nat)
deriving DecidableEq, Repr

/-- Append of the literal chunk before a found `%`: `str_ncat(dest, fmt,
pct - fmt)` when the chunk is non-empty, nothing otherwise
(src/str.c:239). -/
def fmt_put_pre (dest : str_t) (pre : List Nat) : str_t :=
  if pre = [] then dest else str_ncat dest pre pre.length

/-- Loop of `str_cat_fmt` (src/str.c:216).  `none` models the fatal paths: a
specifier outside the table (`assert(false)`), a `%` as last format byte
(same, plus the size underflow), and a `va_arg` type confusion.  Each
iteration consumes at least two format bytes, so structural fuel
`fmt.length + 1` is never exhausted. -/
def str_cat_fmt_go (fuel : Nat) (dest : str_t) (fmt : List Nat) (args : List FmtArg) :
    Option str_t :=
  match fuel with
  | 0 => none
  | fuel + 1 =>
    if fmt = [] then some dest
    else
      match fmt.dropWhile (· ≠ 37) with
      | [] => some (str_cat dest fmt)
      | [_] => none
      | _ :: spec :: rest =>
        let d := fmt_put_pre dest (fmt.takeWhile (· ≠ 37))
        if spec = 115 then
          match args with
          | .s cs :: args2 => str_cat_fmt_go fuel (str_cat d cs) rest args2
          | _ => none
        else if spec = 83 then
          match args with
          | .S str :: args2 => str_cat_fmt_go fuel (str_cat_s d str) rest args2
          | _ => none
        else if spec = 105 then
          match args with
          | .i n :: args2 => str_cat_fmt_go fuel (str_cat d (int_repr n)) rest args2
          | _ => none
        else if spec = 73 then
          match args with
          | .I n :: args2 => str_cat_fmt_go fuel (str_cat d (int_repr n)) rest args2
          | _ => none
        else if spec = 117 then
          match args with
          | .u n :: args2 => str_cat_fmt_go fuel (str_cat d (do_fmt_u n)) rest args2
          | _ => none
        else if spec = 85 then
          match args with
          | .U n :: args2 => str_cat_fmt_go fuel (str_cat d (do_fmt_u n)) rest args2
          | _ => none
        else none

/-- Model of `str_cat_fmt` (src/str.c:216). -/
def str_cat_fmt (dest : str_t) (fmt : List Nat) (args : List FmtArg) : Option str_t :=
  str_cat_fmt_go (fmt.length + 1) dest fmt args

/-- First loop of `str_tok` (src/str.c:284): eat delimiters before the
token.  The input is a C string, so the loop also stops at its end. -/
def tok_skip (delim : List Nat) : List Nat → List Nat
  | [] => []
  | c :: s => if c ∈ delim then tok_skip delim s else c :: s

/-- Second loop of `str_tok` (src/str.c:292): eat non-delimiters into the
token; returns the unconsumed tail and the grown token. -/
def tok_scan (delim : List Nat) (token : str_t) : List Nat → List Nat × str_t
  | [] => ([], token)
  | c :: s => if c ∈ delim then (c :: s, token) else tok_scan delim (str_putc token c) s

/-- Model of `str_tok` (src/str.c:271): `none` is the NULL sentinel, both as
input tail and as exhausted result.  Note the NULL input returns before the
token is cleared. -/
def str_tok (s : Option (List Nat)) (token : str_t) (delim : List Nat) :
    Option (List Nat) × str_t :=
  match s with
  | none => (none, token)
  | some s0 =>
    let token0 := str_cpy token []
    let p := tok_scan delim token0 (tok_skip delim s0)
    (if p.2.len ≠ 0 then some p.1 else none, p.2)

/-- Loop of `str_getline` (src/str.c:313): the stream is the list of bytes
not yet read; returns the grown buffer, whether the stop was a newline (as
opposed to end of stream), and the unread tail. -/
def getline_loop (out : str_t) : List Nat → str_t × Bool × List Nat
  | [] => (out, false, [])
  | c :: s => if c = 10 then (out, true, s) else getline_loop (str_putc out c) s

/-- Model of `str_getline` (src/str.c:305): result buffer, returned count
`out->len + (c == '\n')`, and the unread rest of the stream. -/
def str_getline (out : str_t) (input : List Nat) : str_t × Nat × List Nat :=
  let p := getline_loop (str_cpy out []) input
  (p.1, p.1.len + (if p.2.1 then 1 else 0), p.2.2)

/-- Model of `atoi`: optional sign, then the longest run of leading decimal
digits; other text gives 0. -/
def atoiDigits (acc : Nat) : List Char → Nat
  | c :: s => if '0' ≤ c ∧ c ≤ '9' then atoiDigits (10 * acc + (c.toNat - 48)) s else acc
  | [] => acc

/-- Model of `atoi` on a C string given as a list of characters. -/
def atoi (s : List Char) : Int :=
  match s with
  | '-' :: s2 => - (atoiDigits 0 s2 : Int)
  | '+' :: s2 => (atoiDigits 0 s2 : Int)
  | _ => (atoiDigits 0 s : Int)

/-- Model of `Options` (src/options.h): the openings path is held as the
content of the `str_t`. -/
structure Options where
  chess960 : Bool
  concurrency : Int
  games : Int
  openings : List Char
  random : Bool
  repeatFlag : Bool
deriving DecidableEq, Repr

/-- How `options_new` can terminate fatally: `die` with a diagnostic, or the
violated `assert(!strcmp(argv[i-1], "-openings"))` at src/options.c:52. -/
inductive OptFatal where
  | die (msg : List Char)
  | assertViolation
deriving DecidableEq, Repr

/-- Default option values set at the top of `options_new`
(src/options.c:10). -/
def optionsDefault : Options :=
  { chess960 := false, concurrency := 1, games := 1, openings := [],
    random := false, repeatFlag := false }

/-- Haystack of the `strstr` tag test at src/options.c:28. -/
def valueTagHaystack : List Char := "-concurrency -games -openings".toList

/-- Loop body of `options_new` (src/options.c:22): `prev` is `argv[i-1]`,
`expectValue` the parser mode. -/
def options_loop (opts : Options) (prev : List Char) (expectValue : Bool) :
    List (List Char) → Except OptFatal Options
  | [] =>
    if expectValue then .error (.die ("value expected after tag".toList))
    else .ok opts
  | tok :: rest =>
    if tok.headD ' ' = '-' then
      if expectValue then
        .error (.die ("value expected: found tag".toList))
      else if decide (tok <:+: valueTagHaystack) then
        options_loop opts tok true rest
      else if tok = "-chess960".toList then
        options_loop { opts with chess960 := true } tok false rest
      else if tok = "-random".toList then
        options_loop { opts with random := true } tok false rest
      else if tok = "-repeat".toList then
        options_loop { opts with repeatFlag := true } tok false rest
      else
        .error (.die ("invalid tag".toList))
    else
      if ¬ expectValue then
        .error (.die ("tag expected: found value".toList))
      else if prev = "-concurrency".toList then
        options_loop { opts with concurrency := atoi tok } tok false rest
      else if prev = "-games".toList then
        options_loop { opts with games := atoi tok } tok false rest
      else if prev = "-openings".toList then
        options_loop { opts with openings := tok } tok false rest
      else
        .error .assertViolation

/-- Model of `options_new` (src/options.c:7): `argv` includes the program
name at index 0, which the loop skips. -/
def options_new (argv : List (List Char)) : Except OptFatal Options :=
  options_loop optionsDefault (argv.headD []) false (argv.drop 1)

/-- Specification-side decimal byte string of a natural number, most
significant digit first, built from the mathematical digit expansion. -/
def decimalNat (n : Nat) : List Nat :=
  if n = 0 then [48] else ((Nat.digits 10 n).map (· + 48)).reverse

/-- Well-formedness of one append fragment: raw C strings are null-free,
buffer references are valid. -/
def fragWF : Fragment → Prop
  | .raw b => 0 ∉ b
  | .ref s => str_ok s

/-- Well-formedness of one variadic argument: string arguments must be
null-free C strings, buffer arguments valid buffers. -/
def argWF : FmtArg → Prop
  | .s cs => 0 ∉ cs
  | .S str => str_ok str
  | .i _ => True
  | .I _ => True
  | .u _ => True
  | .U _ => True

/-- One public mutating operation of the buffer API, with its arguments
(spec names: copyFrom, copyFromBuffer, copyBounded, append, appendBounded,
appendChars, appendFormatted). -/
inductive StrOp where
  | cpy (src : List Nat)
  | cpy_s (src : str_t)
  | ncpy (src : List Nat) (n : Nat)
  | cat (frags : List Fragment)
  | ncat (src : List Nat) (n : Nat)
  | putc (cs : List Nat)
  | fmt (f : List Nat) (args : List FmtArg)

/-- Apply one operation to a buffer; `none` is the format engine's fatal
abort. -/
def applyOp (s : str_t) : StrOp → Option str_t
  | .cpy src => some (str_cpy s src)
  | .cpy_s src => some (str_cpy_s s src)
  | .ncpy src n => some (str_ncpy s src n)
  | .cat frags => some (str_append s frags)
  | .ncat src n => some (str_ncat s src n)
  | .putc cs => some (_str_putc s cs)
  | .fmt f args => str_cat_fmt s f args

/-- Run a sequence of operations left to right, stopping at a fatal abort. -/
def runOps (s : str_t) : List StrOp → Option str_t
  | [] => some s
  | op :: ops =>
    match applyOp s op with
    | none => none
    | some t => runOps t ops

/-- Well-formed arguments of one operation: raw byte sequences are null-free
C strings, buffer arguments valid buffers. -/
def opWF : StrOp → Prop
  | .cpy src => 0 ∉ src
  | .cpy_s src => str_ok src
  | .ncpy src _ => 0 ∉ src
  | .cat frags => ∀ f ∈ frags, fragWF f
  | .ncat src _ => 0 ∉ src
  | .putc _ => True
  | .fmt f args => 0 ∉ f ∧ ∀ a ∈ args, argWF a

/-! ### Properties of the growth policy -/

theorem str_round_up_go_ge_start (fuel p2 n : Nat) : p2 ≤ str_round_up_go fuel p2 n := by
  induction fuel generalizing p2 with
  | zero => exact le_refl p2
  | succ fuel ih =>
    simp only [str_round_up_go]
    split
    · exact le_trans (by omega) (ih (2 * p2))
    · exact le_refl p2

theorem str_round_up_go_ge (fuel p2 n : Nat) (h : n ≤ p2 * 2 ^ fuel) :
    n ≤ str_round_up_go fuel p2 n := by
  induction fuel generalizing p2 with
  | zero => simpa [str_round_up_go] using h
  | succ fuel ih =>
    simp only [str_round_up_go]
    split
    · refine ih (2 * p2) ?_
      have heq : p2 * 2 ^ (fuel + 1) = 2 * p2 * 2 ^ fuel := by ring
      rw [heq] at h
      exact h
    · omega

theorem str_round_up_go_pow2 (fuel p2 n : Nat) (hp : ∃ k, p2 = 2 ^ k) :
    ∃ k, str_round_up_go fuel p2 n = 2 ^ k := by
  induction fuel generalizing p2 with
  | zero => exact hp
  | succ fuel ih =>
    simp only [str_round_up_go]
    split
    · refine ih (2 * p2) ?_
      obtain ⟨k, hk⟩ := hp
      exact ⟨k + 1, by rw [hk]; ring⟩
    · exact hp

theorem str_round_up_go_le (fuel p2 n q : Nat) (hp : ∃ k, p2 = 2 ^ k)
    (hq : ∃ k, q = 2 ^ k) (hnq : n ≤ q) (hpq : p2 ≤ q) :
    str_round_up_go fuel p2 n ≤ q := by
  induction fuel generalizing p2 with
  | zero => exact hpq
  | succ fuel ih =>
    simp only [str_round_up_go]
    split
    · rename_i hcond
      obtain ⟨k, hk⟩ := hp
      obtain ⟨j, hj⟩ := hq
      have hkj : k < j := by
        by_contra hge
        have : 2 ^ j ≤ 2 ^ k := Nat.pow_le_pow_right (by norm_num) (by omega)
        omega
      refine ih (2 * p2) ⟨k + 1, by rw [hk]; ring⟩ ?_
      calc 2 * p2 = 2 ^ (k + 1) := by rw [hk]; ring
        _ ≤ 2 ^ j := Nat.pow_le_pow_right (by norm_num) (by omega)
        _ = q := hj.symm
    · exact hpq

theorem str_round_up_ge (n : Nat) : n ≤ str_round_up n := by
  refine str_round_up_go_ge n _ n ?_
  have h := Nat.lt_two_pow n
  have h2 : 2 ^ n ≤ 2 * sizeofSizeT * 2 ^ n := by
    calc 2 ^ n = 1 * 2 ^ n := (one_mul _).symm
      _ ≤ 2 * sizeofSizeT * 2 ^ n :=
        Nat.mul_le_mul_right _ (by norm_num [sizeofSizeT])
  omega

theorem str_round_up_ge_min (n : Nat) : 2 * sizeofSizeT ≤ str_round_up n :=
  str_round_up_go_ge_start n _ n

theorem str_round_up_pow2 (n : Nat) : ∃ k, str_round_up n = 2 ^ k :=
  str_round_up_go_pow2 n _ n ⟨4, by norm_num [sizeofSizeT]⟩

theorem str_round_up_le (n q : Nat) (hq : ∃ k, q = 2 ^ k)
    (hmin : 2 * sizeofSizeT ≤ q) (hnq : n ≤ q) : str_round_up n ≤ q :=
  str_round_up_go_le n _ n q ⟨4, by norm_num [sizeofSizeT]⟩ hq hnq hmin

theorem str_round_up_mono (m n : Nat) (h : m ≤ n) : str_round_up m ≤ str_round_up n :=
  str_round_up_le m _ (str_round_up_pow2 n) (str_round_up_ge_min n)
    (le_trans h (str_round_up_ge n))


/-! ### List index helpers -/

theorem list_getD_cons_succ (a : Nat) (l : List Nat) (n d : Nat) :
    (a :: l).getD (n + 1) d = l.getD n d := rfl

theorem list_getD_set_self (l : List Nat) (n a d : Nat) (h : n < l.length) :
    (l.set n a).getD n d = a := by
  induction l generalizing n with
  | nil => simp at h
  | cons b l ih =>
    cases n with
    | zero => rfl
    | succ n => simpa using ih n (by simpa using h)

theorem list_getD_set_ne (l : List Nat) (m n a d : Nat) (h : m ≠ n) :
    (l.set n a).getD m d = l.getD m d := by
  induction l generalizing m n with
  | nil => simp [List.set]
  | cons b l ih =>
    cases n with
    | zero =>
      cases m with
      | zero => exact absurd rfl h
      | succ m => rfl
    | succ n =>
      cases m with
      | zero => rfl
      | succ m => simpa using ih m n (by omega)

theorem list_take_set_of_le (l : List Nat) (m n a : Nat) (h : m ≤ n) :
    (l.set n a).take m = l.take m := by
  induction l generalizing m n with
  | nil => simp [List.set]
  | cons b l ih =>
    cases n with
    | zero =>
      cases m with
      | zero => simp
      | succ m => omega
    | succ n =>
      cases m with
      | zero => simp
      | succ m => simpa using ih m n (by omega)

theorem list_set_self_of_getD (l : List Nat) (n : Nat) (h : l.getD n 1 = 0) :
    l.set n 0 = l := by
  induction l generalizing n with
  | nil => simp [List.set]
  | cons b l ih =>
    cases n with
    | zero => simp_all [List.getD]
    | succ n => simpa using ih n (by simpa using h)

theorem list_getD_take (l : List Nat) (i m d : Nat) (h : i < m) :
    (l.take m).getD i d = l.getD i d := by
  induction l generalizing i m with
  | nil => simp
  | cons b l ih =>
    cases m with
    | zero => omega
    | succ m =>
      cases i with
      | zero => rfl
      | succ i => simpa using ih i m (by omega)

theorem list_take_succ_getD (l : List Nat) (n d : Nat) (h : n < l.length) :
    l.take (n + 1) = l.take n ++ [l.getD n d] := by
  induction l generalizing n with
  | nil => simp at h
  | cons b l ih =>
    cases n with
    | zero => simp [List.getD]
    | succ n =>
      have := ih n (by simpa using h)
      simp [List.take_succ] at this ⊢
      simpa using this

theorem list_take_set_succ (l : List Nat) (n a : Nat) (h : n < l.length) :
    (l.set n a).take (n + 1) = l.take n ++ [a] := by
  have h2 : n < (l.set n a).length := by simpa using h
  rw [list_take_succ_getD (l.set n a) n 1 h2, list_getD_set_self l n a 1 h,
    list_take_set_of_le l n n a (le_refl n)]

theorem list_getD_append_right (l1 l2 : List Nat) (k d : Nat) :
    (l1 ++ l2).getD (l1.length + k) d = l2.getD k d := by
  induction l1 with
  | nil => simp
  | cons b l ih => simpa [Nat.succ_add] using ih

theorem list_getD_append_left (l1 l2 : List Nat) (i d : Nat) (h : i < l1.length) :
    (l1 ++ l2).getD i d = l1.getD i d := by
  induction l1 generalizing i with
  | nil => simp at h
  | cons b l ih =>
    cases i with
    | zero => rfl
    | succ i => simpa using ih i (by simpa using h)

theorem list_getD_drop (l : List Nat) (m k d : Nat) :
    (l.drop m).getD k d = l.getD (m + k) d := by
  induction l generalizing m with
  | nil => simp
  | cons b l ih =>
    cases m with
    | zero => simp
    | succ m => simpa [Nat.succ_add] using ih m

/-! ### `memcpyAt` and `reallocList` -/

theorem memcpyAt_length (buf src : List Nat) (off : Nat)
    (h : off + src.length ≤ buf.length) :
    (memcpyAt buf off src).length = buf.length := by
  simp [memcpyAt]
  omega

theorem memcpyAt_take (buf src : List Nat) (off : Nat) (h : off ≤ buf.length) :
    (memcpyAt buf off src).take off = buf.take off := by
  unfold memcpyAt
  rw [List.take_append_of_le_length (by simp; omega),
    List.take_append_of_le_length (by simp; omega), List.take_take]
  simp

theorem memcpyAt_take_add (buf src : List Nat) (off : Nat) (h : off ≤ buf.length) :
    (memcpyAt buf off src).take (off + src.length) = buf.take off ++ src := by
  unfold memcpyAt
  exact List.take_left' (by simp; omega)

theorem memcpyAt_getD_end (buf src : List Nat) (off d : Nat) (h : off ≤ buf.length) :
    (memcpyAt buf off src).getD (off + src.length) d = buf.getD (off + src.length) d := by
  unfold memcpyAt
  have h2 : off + src.length = (buf.take off ++ src).length + 0 := by simp; omega
  rw [h2, list_getD_append_right]
  rw [list_getD_drop]

theorem reallocList_length (buf : List Nat) (m : Nat) :
    (reallocList buf m).length = m := by
  simp [reallocList]
  omega

theorem reallocList_grow (buf : List Nat) (m : Nat) (h : buf.length ≤ m) :
    reallocList buf m = buf ++ List.replicate (m - buf.length) junk := by
  unfold reallocList
  rw [List.take_of_length_le h]

/-! ### `str_resize` -/

theorem str_resize_len (s : str_t) (n : Nat) : (str_resize s n).len = n := rfl

theorem str_resize_alloc_ge (s : str_t) (n : Nat) :
    str_round_up (n + 1) ≤ (str_resize s n).alloc := by
  unfold str_resize
  dsimp only
  split
  · exact le_refl _
  · omega

theorem str_resize_alloc_ge_old (s : str_t) (n : Nat) :
    s.alloc ≤ (str_resize s n).alloc := by
  unfold str_resize
  dsimp only
  split
  · omega
  · exact le_refl _

theorem str_resize_buf_length (s : str_t) (n : Nat) (h : s.buf.length = s.alloc) :
    (str_resize s n).buf.length = (str_resize s n).alloc := by
  unfold str_resize
  dsimp only
  split
  · simp [reallocList_length]
  · simp [h]

theorem str_resize_getD_len (s : str_t) (n : Nat) (h : s.buf.length = s.alloc) :
    (str_resize s n).buf.getD n 1 = 0 := by
  have hlen : (str_resize s n).buf.length = (str_resize s n).alloc :=
    str_resize_buf_length s n h
  have halloc : str_round_up (n + 1) ≤ (str_resize s n).alloc := str_resize_alloc_ge s n
  have hru : n + 1 ≤ str_round_up (n + 1) := str_round_up_ge (n + 1)
  unfold str_resize at hlen ⊢
  dsimp only at hlen ⊢
  split
  · rename_i hcond
    refine list_getD_set_self _ n 0 1 ?_
    rw [reallocList_length]
    omega
  · rename_i hcond
    refine list_getD_set_self _ n 0 1 ?_
    rw [h]
    omega

theorem str_resize_take (s : str_t) (n m : Nat) (h : s.buf.length = s.alloc)
    (hm : m ≤ n) (hms : m ≤ s.buf.length) :
    (str_resize s n).buf.take m = s.buf.take m := by
  unfold str_resize
  dsimp only
  rw [list_take_set_of_le _ m n 0 hm]
  split
  · rename_i hcond
    rw [reallocList_grow s.buf _ (by omega)]
    exact List.take_append_of_le_length hms
  · rfl

/-! ### Invariant and content lemmas for the copy and append operations -/

theorem str_ok_len_lt_buf (s : str_t) (h : str_ok s) : s.len + 1 ≤ s.buf.length := by
  obtain ⟨hA, hL, -, -⟩ := h
  have := str_round_up_ge (s.len + 1)
  omega

theorem content_length (s : str_t) (h : str_ok s) : (content s).length = s.len := by
  have := str_ok_len_lt_buf s h
  simp [content]
  omega

theorem do_str_cpy_raw (dest : str_t) (mem : List Nat) (n : Nat)
    (hlen : dest.buf.length = dest.alloc) (hn : n + 1 ≤ mem.length) :
    (do_str_cpy dest mem n).len = n ∧
    str_round_up (n + 1) ≤ (do_str_cpy dest mem n).alloc ∧
    (do_str_cpy dest mem n).buf.length = (do_str_cpy dest mem n).alloc ∧
    (do_str_cpy dest mem n).buf.take (n + 1) = mem.take (n + 1) := by
  have hdl : (str_resize dest n).buf.length = (str_resize dest n).alloc :=
    str_resize_buf_length dest n hlen
  have hda : str_round_up (n + 1) ≤ (str_resize dest n).alloc := str_resize_alloc_ge dest n
  have hru : n + 1 ≤ str_round_up (n + 1) := str_round_up_ge (n + 1)
  have hsl : (mem.take (n + 1)).length = n + 1 := by simp; omega
  have hfit : 0 + (mem.take (n + 1)).length ≤ (str_resize dest n).buf.length := by
    rw [hsl]; omega
  refine ⟨rfl, ?_, ?_, ?_⟩
  · exact hda
  · show (memcpyAt (str_resize dest n).buf 0 (mem.take (n + 1))).length = (str_resize dest n).alloc
    rw [memcpyAt_length _ _ _ hfit, hdl]
  · show (memcpyAt (str_resize dest n).buf 0 (mem.take (n + 1))).take (n + 1) = mem.take (n + 1)
    have := memcpyAt_take_add (str_resize dest n).buf (mem.take (n + 1)) 0 (by omega)
    rw [hsl] at this
    simpa using this

theorem do_str_cpy_spec (dest : str_t) (mem : List Nat) (n : Nat)
    (hlen : dest.buf.length = dest.alloc) (hn : n + 1 ≤ mem.length)
    (hterm : mem.getD n 1 = 0) (hnf : 0 ∉ mem.take n) :
    str_ok (do_str_cpy dest mem n) ∧ (do_str_cpy dest mem n).len = n ∧
    content (do_str_cpy dest mem n) = mem.take n := by
  obtain ⟨rl, ra, rb, rt⟩ := do_str_cpy_raw dest mem n hlen hn
  have hcontent : (do_str_cpy dest mem n).buf.take n = mem.take n := by
    have h1 : (do_str_cpy dest mem n).buf.take n
        = ((do_str_cpy dest mem n).buf.take (n + 1)).take n := by
      rw [List.take_take]
      congr 1
      omega
    rw [h1, rt, List.take_take]
    congr 1
    omega
  have hterm2 : (do_str_cpy dest mem n).buf.getD n 1 = 0 := by
    have h1 : (do_str_cpy dest mem n).buf.getD n 1
        = ((do_str_cpy dest mem n).buf.take (n + 1)).getD n 1 :=
      (list_getD_take _ _ _ _ (by omega)).symm
    rw [h1, rt, list_getD_take _ _ _ _ (by omega)]
    exact hterm
  refine ⟨⟨?_, rb, ?_, ?_⟩, rl, ?_⟩
  · rw [rl]; exact ra
  · rw [rl]; exact hterm2
  · rw [rl]
    show 0 ∉ (do_str_cpy dest mem n).buf.take n
    rw [hcontent]
    exact hnf
  · show (do_str_cpy dest mem n).buf.take (do_str_cpy dest mem n).len = mem.take n
    rw [rl, hcontent]

theorem str_cpy_spec (dest : str_t) (src : List Nat) (hok : str_ok dest) (hnf : 0 ∉ src) :
    str_ok (str_cpy dest src) ∧ (str_cpy dest src).len = src.length ∧
    content (str_cpy dest src) = src := by
  have hterm : (src ++ [0]).getD src.length 1 = 0 := by
    have := list_getD_append_right src [0] 0 1
    simpa using this
  have hnf2 : 0 ∉ (src ++ [0]).take src.length := by
    rw [List.take_append_of_le_length (le_refl _)]
    simpa using hnf
  have h := do_str_cpy_spec dest (src ++ [0]) src.length hok.2.1 (by simp) hterm hnf2
  refine ⟨h.1, h.2.1, ?_⟩
  show content (do_str_cpy dest (src ++ [0]) src.length) = src
  rw [h.2.2]
  exact List.take_left' rfl

theorem str_cpy_s_spec (dest src : str_t) (hok : str_ok dest) (hok2 : str_ok src) :
    str_ok (str_cpy_s dest src) ∧ (str_cpy_s dest src).len = src.len ∧
    content (str_cpy_s dest src) = content src := by
  have hsl : src.len + 1 ≤ src.buf.length := str_ok_len_lt_buf src hok2
  have h := do_str_cpy_spec dest src.buf src.len hok.2.1 hsl hok2.2.2.1 hok2.2.2.2
  refine ⟨h.1, h.2.1, ?_⟩
  show content (do_str_cpy dest src.buf src.len) = content src
  rw [h.2.2]
  rfl

theorem str_ncpy_spec (dest : str_t) (src : List Nat) (n : Nat) (hok : str_ok dest)
    (hnf : 0 ∉ src) :
    str_ok (str_ncpy dest src n) ∧ (str_ncpy dest src n).len = min src.length n ∧
    content (str_ncpy dest src n) = src.take n := by
  set m := if src.length < n then src.length else n with hm
  have hmle : m ≤ src.length := by rw [hm]; split <;> omega
  obtain ⟨rl, ra, rb, rt⟩ := do_str_cpy_raw dest (src ++ [0]) m hok.2.1 (by simp; omega)
  have hru : m + 1 ≤ str_round_up (m + 1) := str_round_up_ge (m + 1)
  have hmlt : m < (do_str_cpy dest (src ++ [0]) m).buf.length := by rw [rb]; omega
  have hunfold : str_ncpy dest src n =
      { do_str_cpy dest (src ++ [0]) m with
        buf := (do_str_cpy dest (src ++ [0]) m).buf.set m 0 } := rfl
  have hmin : m ⊓ (m + 1) = m := by omega
  have htake : ((do_str_cpy dest (src ++ [0]) m).buf.set m 0).take m = src.take m := by
    rw [list_take_set_of_le _ m m 0 (le_refl m)]
    have h1 : (do_str_cpy dest (src ++ [0]) m).buf.take m
        = ((do_str_cpy dest (src ++ [0]) m).buf.take (m + 1)).take m := by
      rw [List.take_take, hmin]
    rw [h1, rt, List.take_take, hmin]
    exact List.take_append_of_le_length hmle
  have hsrcm : src.take m = src.take n := by
    rw [hm]
    split
    · rename_i hlt
      rw [List.take_of_length_le (by omega), List.take_of_length_le (by omega)]
    · rfl
  rw [hunfold]
  refine ⟨⟨?_, ?_, ?_, ?_⟩, ?_, ?_⟩
  · show str_round_up ((do_str_cpy dest (src ++ [0]) m).len + 1)
        ≤ (do_str_cpy dest (src ++ [0]) m).alloc
    rw [rl]; exact ra
  · show ((do_str_cpy dest (src ++ [0]) m).buf.set m 0).length
        = (do_str_cpy dest (src ++ [0]) m).alloc
    rw [List.length_set]; exact rb
  · show ((do_str_cpy dest (src ++ [0]) m).buf.set m 0).getD
        (do_str_cpy dest (src ++ [0]) m).len 1 = 0
    rw [rl]
    exact list_getD_set_self _ m 0 1 hmlt
  · show 0 ∉ ((do_str_cpy dest (src ++ [0]) m).buf.set m 0).take
        (do_str_cpy dest (src ++ [0]) m).len
    rw [rl, htake]
    intro hmem
    exact hnf (List.take_subset m src hmem)
  · show (do_str_cpy dest (src ++ [0]) m).len = min src.length n
    rw [rl, hm]
    split <;> omega
  · show ((do_str_cpy dest (src ++ [0]) m).buf.set m 0).take
        (do_str_cpy dest (src ++ [0]) m).len = src.take n
    rw [rl, htake, hsrcm]

theorem str_putc1_spec (dest : str_t) (c : Nat) (hok : str_ok dest) (hc : c ≠ 0) :
    str_ok (str_putc1 dest c) ∧ (str_putc1 dest c).len = dest.len + 1 ∧
    content (str_putc1 dest c) = content dest ++ [c] := by
  obtain ⟨hA, hL, hT, hZ⟩ := hok
  have hlb : dest.len + 1 ≤ dest.buf.length := str_ok_len_lt_buf dest ⟨hA, hL, hT, hZ⟩
  set d := str_resize dest (dest.len + 1) with hd
  have hdl : d.buf.length = d.alloc := str_resize_buf_length dest _ hL
  have hda : str_round_up (dest.len + 1 + 1) ≤ d.alloc := str_resize_alloc_ge dest _
  have hru : dest.len + 1 + 1 ≤ str_round_up (dest.len + 1 + 1) := str_round_up_ge _
  have hdt : d.buf.getD (dest.len + 1) 1 = 0 := str_resize_getD_len dest _ hL
  have hdtk : d.buf.take dest.len = dest.buf.take dest.len :=
    str_resize_take dest (dest.len + 1) dest.len hL (by omega) (by omega)
  have hr : str_putc1 dest c = { d with buf := d.buf.set dest.len c } := by
    show ({ d with buf := d.buf.set (d.len - 1) c } : str_t) = _
    have : d.len - 1 = dest.len := by
      show dest.len + 1 - 1 = dest.len
      omega
    rw [this]
  rw [hr]
  have hlt : dest.len < d.buf.length := by omega
  refine ⟨⟨?_, ?_, ?_, ?_⟩, rfl, ?_⟩
  · show str_round_up (d.len + 1) ≤ d.alloc
    exact hda
  · show (d.buf.set dest.len c).length = d.alloc
    rw [List.length_set]; exact hdl
  · show (d.buf.set dest.len c).getD d.len 1 = 0
    show (d.buf.set dest.len c).getD (dest.len + 1) 1 = 0
    rw [list_getD_set_ne _ _ _ _ _ (by omega)]
    exact hdt
  · show 0 ∉ (d.buf.set dest.len c).take d.len
    show 0 ∉ (d.buf.set dest.len c).take (dest.len + 1)
    rw [list_take_set_succ _ _ _ hlt, hdtk]
    intro hmem
    rcases List.mem_append.mp hmem with h | h
    · exact hZ h
    · simp at h
      exact hc h.symm
  · show (d.buf.set dest.len c).take d.len = content dest ++ [c]
    show (d.buf.set dest.len c).take (dest.len + 1) = content dest ++ [c]
    rw [list_take_set_succ _ _ _ hlt, hdtk]
    rfl

theorem putc_fold_spec (cs : List Nat) : ∀ dest : str_t, str_ok dest → (∀ c ∈ cs, c ≠ 0) →
    str_ok (cs.foldl str_putc1 dest) ∧
    content (cs.foldl str_putc1 dest) = content dest ++ cs := by
  induction cs with
  | nil => intro dest hok _; exact ⟨hok, by simp⟩
  | cons c cs ih =>
    intro dest hok hcs
    obtain ⟨h1, h2, h3⟩ := str_putc1_spec dest c hok (hcs c (by simp))
    obtain ⟨h4, h5⟩ := ih (str_putc1 dest c) h1 (fun b hb => hcs b (by simp [hb]))
    refine ⟨h4, ?_⟩
    simp only [List.foldl_cons] at *
    rw [h5, h3]
    simp

theorem _str_putc_spec (dest : str_t) (cs : List Nat) (hok : str_ok dest) :
    str_ok (_str_putc dest cs) ∧
    content (_str_putc dest cs) = content dest ++ cs.takeWhile (· ≠ 0) := by
  refine putc_fold_spec _ dest hok ?_
  intro c hc
  have := List.mem_takeWhile_imp hc
  simpa using this

theorem do_str_cat_spec (dest : str_t) (mem : List Nat) (n : Nat) (hok : str_ok dest)
    (hnf : 0 ∉ mem.take n) (hn : n ≤ mem.length) :
    str_ok (do_str_cat dest mem n) ∧ (do_str_cat dest mem n).len = dest.len + n ∧
    content (do_str_cat dest mem n) = content dest ++ mem.take n := by
  obtain ⟨hA, hL, hT, hZ⟩ := hok
  have hlb : dest.len + 1 ≤ dest.buf.length := str_ok_len_lt_buf dest ⟨hA, hL, hT, hZ⟩
  set d := str_resize dest (dest.len + n) with hd
  have hdl : d.buf.length = d.alloc := str_resize_buf_length dest _ hL
  have hda : str_round_up (dest.len + n + 1) ≤ d.alloc := str_resize_alloc_ge dest _
  have hru : dest.len + n + 1 ≤ str_round_up (dest.len + n + 1) := str_round_up_ge _
  have hdt : d.buf.getD (dest.len + n) 1 = 0 := str_resize_getD_len dest _ hL
  have hdtk : d.buf.take dest.len = dest.buf.take dest.len :=
    str_resize_take dest (dest.len + n) dest.len hL (by omega) (by omega)
  have hsl : (mem.take n).length = n := by simp; omega
  have hr : do_str_cat dest mem n = { d with buf := memcpyAt d.buf dest.len (mem.take n) } :=
    rfl
  rw [hr]
  have hoff : dest.len ≤ d.buf.length := by omega
  have hfit : dest.len + (mem.take n).length ≤ d.buf.length := by rw [hsl]; omega
  have htk : (memcpyAt d.buf dest.len (mem.take n)).take (dest.len + n) =
      content dest ++ mem.take n := by
    have h1 := memcpyAt_take_add d.buf (mem.take n) dest.len hoff
    rw [hsl] at h1
    rw [h1, hdtk]
    rfl
  refine ⟨⟨?_, ?_, ?_, ?_⟩, rfl, ?_⟩
  · show str_round_up (d.len + 1) ≤ d.alloc
    exact hda
  · show (memcpyAt d.buf dest.len (mem.take n)).length = d.alloc
    rw [memcpyAt_length _ _ _ hfit]; exact hdl
  · show (memcpyAt d.buf dest.len (mem.take n)).getD d.len 1 = 0
    show (memcpyAt d.buf dest.len (mem.take n)).getD (dest.len + n) 1 = 0
    have h1 := memcpyAt_getD_end d.buf (mem.take n) dest.len 1 hoff
    rw [hsl] at h1
    rw [h1]
    exact hdt
  · show 0 ∉ (memcpyAt d.buf dest.len (mem.take n)).take d.len
    show 0 ∉ (memcpyAt d.buf dest.len (mem.take n)).take (dest.len + n)
    rw [htk]
    intro hmem
    rcases List.mem_append.mp hmem with h | h
    · exact hZ h
    · exact hnf h
  · show (memcpyAt d.buf dest.len (mem.take n)).take d.len = content dest ++ mem.take n
    show (memcpyAt d.buf dest.len (mem.take n)).take (dest.len + n) = content dest ++ mem.take n
    exact htk

theorem str_cat_one_spec (dest : str_t) (src : List Nat) (hok : str_ok dest)
    (hnf : 0 ∉ src) :
    str_ok (str_cat_one dest src) ∧ (str_cat_one dest src).len = dest.len + src.length ∧
    content (str_cat_one dest src) = content dest ++ src := by
  have h := do_str_cat_spec dest src src.length hok (by simpa using hnf) (le_refl _)
  simpa [str_cat_one, List.take_of_length_le (le_refl src.length)] using h

theorem str_cat_s_one_spec (dest src : str_t) (hok : str_ok dest) (hok2 : str_ok src) :
    str_ok (str_cat_s_one dest src) ∧ (str_cat_s_one dest src).len = dest.len + src.len ∧
    content (str_cat_s_one dest src) = content dest ++ content src := by
  have h := do_str_cat_spec dest src.buf src.len hok hok2.2.2.2
    (by have := str_ok_len_lt_buf src hok2; omega)
  exact h

theorem str_ncat_spec (dest : str_t) (src : List Nat) (n : Nat) (hok : str_ok dest)
    (hnf : 0 ∉ src) :
    str_ok (str_ncat dest src n) ∧
    content (str_ncat dest src n) = content dest ++ src.take n := by
  set m := if src.length < n then src.length else n with hm
  have hmle : m ≤ src.length := by rw [hm]; split <;> omega
  have hsrcm : src.take m = src.take n := by
    rw [hm]
    split
    · rename_i hlt
      rw [List.take_of_length_le (by omega), List.take_of_length_le (by omega)]
    · rfl
  have h := do_str_cat_spec dest src m hok
    (fun hmem => hnf (List.take_subset m src hmem)) hmle
  refine ⟨h.1, ?_⟩
  have h3 := h.2.2
  rw [hsrcm] at h3
  exact h3

theorem str_cat_spec (dest : str_t) (src : List Nat) (hok : str_ok dest)
    (hnf : 0 ∉ src) :
    str_ok (str_cat dest src) ∧ (str_cat dest src).len = dest.len + src.length ∧
    content (str_cat dest src) = content dest ++ src :=
  str_cat_one_spec dest src hok hnf

theorem str_cat_s_spec (dest src : str_t) (hok : str_ok dest) (hok2 : str_ok src) :
    str_ok (str_cat_s dest src) ∧ (str_cat_s dest src).len = dest.len + src.len ∧
    content (str_cat_s dest src) = content dest ++ content src :=
  str_cat_s_one_spec dest src hok hok2

/-! ### Lifecycle and fold lemmas -/

theorem memcpyAt_zero (buf src : List Nat) :
    memcpyAt buf 0 src = src ++ buf.drop src.length := by
  simp [memcpyAt]

theorem str_new_ok : str_ok str_new := by decide

theorem str_dup_spec (src : List Nat) (hnf : 0 ∉ src) :
    str_ok (str_dup src) ∧ (str_dup src).len = src.length ∧
    content (str_dup src) = src := by
  have halloc : src.length + 1 ≤ str_round_up (src.length + 1) := str_round_up_ge _
  have hbuf : (str_dup src).buf = (src ++ [0]) ++
      (List.replicate (str_round_up (src.length + 1)) junk).drop (src.length + 1) := by
    show memcpyAt (List.replicate (str_round_up (src.length + 1)) junk) 0 (src ++ [0]) = _
    rw [memcpyAt_zero]
    simp
  have hlen2 : (src ++ [0]).length = src.length + 1 := by simp
  refine ⟨⟨?_, ?_, ?_, ?_⟩, rfl, ?_⟩
  · exact le_refl _
  · show (str_dup src).buf.length = str_round_up (src.length + 1)
    rw [hbuf]
    simp
    omega
  · show (str_dup src).buf.getD src.length 1 = 0
    rw [hbuf]
    have h1 := list_getD_append_right src
      ([0] ++ (List.replicate (str_round_up (src.length + 1)) junk).drop (src.length + 1)) 0 1
    rw [List.append_assoc]
    simpa using h1
  · show 0 ∉ (str_dup src).buf.take src.length
    rw [hbuf, List.append_assoc, List.take_append_of_le_length (by simp), List.take_of_length_le (le_refl _)]
    exact hnf
  · show (str_dup src).buf.take src.length = src
    rw [hbuf, List.append_assoc, List.take_append_of_le_length (by simp), List.take_of_length_le (le_refl _)]

theorem cat_fold_spec (frags : List (List Nat)) : ∀ dest : str_t, str_ok dest →
    (∀ f ∈ frags, 0 ∉ f) →
    str_ok (_str_cat dest frags) ∧
    content (_str_cat dest frags) = content dest ++ frags.flatten := by
  induction frags with
  | nil => intro dest hok _; exact ⟨hok, by simp [_str_cat]⟩
  | cons f fs ih =>
    intro dest hok hwf
    obtain ⟨h1, h2, h3⟩ := str_cat_one_spec dest f hok (hwf f (by simp))
    obtain ⟨h4, h5⟩ := ih (str_cat_one dest f) h1 (fun g hg => hwf g (by simp [hg]))
    refine ⟨h4, ?_⟩
    show content (_str_cat (str_cat_one dest f) fs) = content dest ++ (f :: fs).flatten
    rw [h5, h3]
    simp

theorem cat_s_fold_spec (frags : List str_t) : ∀ dest : str_t, str_ok dest →
    (∀ f ∈ frags, str_ok f) →
    str_ok (_str_cat_s dest frags) ∧
    content (_str_cat_s dest frags) = content dest ++ (frags.map content).flatten := by
  induction frags with
  | nil => intro dest hok _; exact ⟨hok, by simp [_str_cat_s]⟩
  | cons f fs ih =>
    intro dest hok hwf
    obtain ⟨h1, h2, h3⟩ := str_cat_s_one_spec dest f hok (hwf f (by simp))
    obtain ⟨h4, h5⟩ := ih (str_cat_s_one dest f) h1 (fun g hg => hwf g (by simp [hg]))
    refine ⟨h4, ?_⟩
    show content (_str_cat_s (str_cat_s_one dest f) fs) = content dest ++ ((f :: fs).map content).flatten
    rw [h5, h3]
    simp

theorem cat_fragment_spec (dest : str_t) (f : Fragment) (hok : str_ok dest)
    (hwf : fragWF f) :
    str_ok (cat_fragment dest f) ∧
    content (cat_fragment dest f) = content dest ++ f.bytes := by
  cases f with
  | raw b =>
    obtain ⟨h1, h2, h3⟩ := str_cat_one_spec dest b hok hwf
    exact ⟨h1, h3⟩
  | ref s =>
    obtain ⟨h1, h2, h3⟩ := str_cat_s_one_spec dest s hok hwf
    exact ⟨h1, h3⟩

theorem str_append_spec (frags : List Fragment) : ∀ dest : str_t, str_ok dest →
    (∀ f ∈ frags, fragWF f) →
    str_ok (str_append dest frags) ∧
    content (str_append dest frags) = content dest ++ (frags.map Fragment.bytes).flatten := by
  induction frags with
  | nil => intro dest hok _; exact ⟨hok, by simp [str_append]⟩
  | cons f fs ih =>
    intro dest hok hwf
    obtain ⟨h1, h3⟩ := cat_fragment_spec dest f hok (hwf f (by simp))
    obtain ⟨h4, h5⟩ := ih (cat_fragment dest f) h1 (fun g hg => hwf g (by simp [hg]))
    refine ⟨h4, ?_⟩
    show content (str_append (cat_fragment dest f) fs) = content dest ++ ((f :: fs).map Fragment.bytes).flatten
    rw [h5, h3]
    simp

/-! ### Decimal rendering -/

theorem fmt_u_go_eq (fuel n : Nat) (h : n < fuel) :
    fmt_u_go fuel n = if n = 0 then [48] else (Nat.digits 10 n).map (· + 48) := by
  induction fuel generalizing n with
  | zero => omega
  | succ fuel ih =>
    simp only [fmt_u_go]
    by_cases h0 : n / 10 = 0
    · rw [if_pos h0]
      have hn10 : n < 10 := by omega
      by_cases hz : n = 0
      · subst hz; simp
      · rw [if_neg hz, Nat.digits_def' (by norm_num : (1:Nat) < 10) (by omega), h0]
        simp [Nat.mod_eq_of_lt hn10, Nat.add_comm]
    · rw [if_neg h0]
      have hge : 10 ≤ n := by omega
      have hlt : n / 10 < fuel := by
        have : n / 10 < n := Nat.div_lt_self (by omega) (by norm_num)
        omega
      rw [Nat.digits_def' (by norm_num : (1:Nat) < 10) (by omega), ih (n / 10) hlt,
        if_neg h0, if_neg (show ¬ n = 0 by omega)]
      simp [Nat.add_comm]

theorem do_fmt_u_eq (n : Nat) : do_fmt_u n = decimalNat n := by
  unfold do_fmt_u decimalNat
  rw [fmt_u_go_eq (n + 1) n (by omega)]
  split <;> simp

theorem decimalNat_digits (n : Nat) : ∀ d ∈ decimalNat n, 48 ≤ d ∧ d < 58 := by
  intro d hd
  unfold decimalNat at hd
  split at hd
  · simp at hd; omega
  · simp at hd
    obtain ⟨a, ha, had⟩ := hd
    have := Nat.digits_lt_base (by norm_num) ha
    omega

theorem decimalNat_nonzero (n : Nat) : 0 ∉ decimalNat n := by
  intro h
  have := decimalNat_digits n 0 h
  omega

theorem do_fmt_u_nonzero (n : Nat) : 0 ∉ do_fmt_u n := by
  rw [do_fmt_u_eq]
  exact decimalNat_nonzero n

theorem int_repr_nonzero (n : Int) : 0 ∉ int_repr n := by
  unfold int_repr
  split
  · intro hmem
    rcases List.mem_cons.mp hmem with h | h
    · exact absurd h (by norm_num)
    · exact do_fmt_u_nonzero n.natAbs h
  · exact do_fmt_u_nonzero n.natAbs

theorem decimalNat_ofDigits (n : Nat) :
    Nat.ofDigits 10 (((decimalNat n).map (fun d => d - 48)).reverse) = n := by
  unfold decimalNat
  split
  · rename_i h
    subst h
    simp [Nat.ofDigits]
  · rw [List.map_reverse, List.reverse_reverse, List.map_map]
    have hM : ((fun d => d - 48) ∘ fun d : Nat => d + 48) = id := by
      funext a
      simp
    rw [hM, List.map_id, Nat.ofDigits_digits]

theorem decimalNat_no_leading_zero (n : Nat) (h : n ≠ 0) :
    (decimalNat n).headD 0 ≠ 48 := by
  unfold decimalNat
  rw [if_neg h]
  have hne : Nat.digits 10 n ≠ [] := Nat.digits_ne_nil_iff_ne_zero.mpr h
  have hpos := Nat.getLast_digit_ne_zero 10 h
  rw [List.headD_eq_head?, List.head?_reverse, List.getLast?_map,
    List.getLast?_eq_getLast _ hne]
  simp
  omega

/-! ### Format engine -/

theorem fmt_put_pre_spec (dest : str_t) (pre : List Nat) (hok : str_ok dest)
    (hnf : 0 ∉ pre) :
    str_ok (fmt_put_pre dest pre) ∧ content (fmt_put_pre dest pre) = content dest ++ pre := by
  unfold fmt_put_pre
  split
  · rename_i h
    subst h
    exact ⟨hok, by simp⟩
  · obtain ⟨h1, h2⟩ := str_ncat_spec dest pre pre.length hok hnf
    refine ⟨h1, ?_⟩
    rw [h2, List.take_of_length_le (le_refl _)]

theorem str_cat_fmt_go_ok (fuel : Nat) : ∀ (dest : str_t) (fmt : List Nat) (args : List FmtArg),
    str_ok dest → 0 ∉ fmt → (∀ a ∈ args, argWF a) →
    ∀ t, str_cat_fmt_go fuel dest fmt args = some t → str_ok t := by
  induction fuel with
  | zero =>
    intro dest fmt args _ _ _ t ht
    exact absurd ht (by simp [str_cat_fmt_go])
  | succ fuel ih =>
    intro dest fmt args hok hf ha t ht
    simp only [str_cat_fmt_go] at ht
    by_cases hemp : fmt = []
    · rw [if_pos hemp] at ht
      exact (Option.some.inj ht) ▸ hok
    · rw [if_neg hemp] at ht
      split at ht
      · exact (Option.some.inj ht) ▸ (str_cat_spec dest fmt hok hf).1
      · exact absurd ht (by simp)
      · rename_i x spec rest heq
        have hpre : 0 ∉ fmt.takeWhile (· ≠ 37) :=
          fun hmem => hf ((List.takeWhile_sublist _).subset hmem)
        have hrest : 0 ∉ rest := by
          intro hmem
          have hsub : List.Sublist (fmt.dropWhile (· ≠ 37)) fmt := List.dropWhile_sublist _
          rw [heq] at hsub
          exact hf (hsub.subset (by simp [hmem]))
        obtain ⟨hd1, hd2⟩ := fmt_put_pre_spec dest (fmt.takeWhile (· ≠ 37)) hok hpre
        split at ht
        · split at ht
          · rename_i cs args2
            refine ih _ rest args2 ?_ hrest (fun a haa => ha a (by simp [haa])) t ht
            exact (str_cat_spec _ cs hd1 (ha (FmtArg.s cs) (by simp))).1
          · exact absurd ht (by simp)
        · split at ht
          · split at ht
            · rename_i str args2
              refine ih _ rest args2 ?_ hrest (fun a haa => ha a (by simp [haa])) t ht
              exact (str_cat_s_spec _ str hd1 (ha (FmtArg.S str) (by simp))).1
            · exact absurd ht (by simp)
          · split at ht
            · split at ht
              · rename_i m args2
                refine ih _ rest args2 ?_ hrest (fun a haa => ha a (by simp [haa])) t ht
                exact (str_cat_spec _ (int_repr m) hd1 (int_repr_nonzero m)).1
              · exact absurd ht (by simp)
            · split at ht
              · split at ht
                · rename_i m args2
                  refine ih _ rest args2 ?_ hrest (fun a haa => ha a (by simp [haa])) t ht
                  exact (str_cat_spec _ (int_repr m) hd1 (int_repr_nonzero m)).1
                · exact absurd ht (by simp)
              · split at ht
                · split at ht
                  · rename_i m args2
                    refine ih _ rest args2 ?_ hrest (fun a haa => ha a (by simp [haa])) t ht
                    exact (str_cat_spec _ (do_fmt_u m) hd1 (do_fmt_u_nonzero m)).1
                  · exact absurd ht (by simp)
                · split at ht
                  · split at ht
                    · rename_i m args2
                      refine ih _ rest args2 ?_ hrest (fun a haa => ha a (by simp [haa])) t ht
                      exact (str_cat_spec _ (do_fmt_u m) hd1 (do_fmt_u_nonzero m)).1
                    · exact absurd ht (by simp)
                  · exact absurd ht (by simp)

theorem str_cat_fmt_ok (dest : str_t) (fmt : List Nat) (args : List FmtArg)
    (hok : str_ok dest) (hf : 0 ∉ fmt) (ha : ∀ a ∈ args, argWF a) (t : str_t)
    (ht : str_cat_fmt dest fmt args = some t) : str_ok t :=
  str_cat_fmt_go_ok (fmt.length + 1) dest fmt args hok hf ha t ht

theorem str_cat_fmt_single_i (dest : str_t) (n : Int) :
    str_cat_fmt dest [37, 105] [.i n] = some (str_cat dest (int_repr n)) := rfl

theorem str_cat_fmt_single_I (dest : str_t) (n : Int) :
    str_cat_fmt dest [37, 73] [.I n] = some (str_cat dest (int_repr n)) := rfl

theorem str_cat_fmt_single_u (dest : str_t) (n : Nat) :
    str_cat_fmt dest [37, 117] [.u n] = some (str_cat dest (do_fmt_u n)) := rfl

theorem str_cat_fmt_single_U (dest : str_t) (n : Nat) :
    str_cat_fmt dest [37, 85] [.U n] = some (str_cat dest (do_fmt_u n)) := rfl

theorem str_cat_fmt_example_eq (dest : str_t) :
    str_cat_fmt dest
        [37, 105, 32, 97, 112, 112, 108, 101, 115, 44, 32, 37, 117,
         32, 111, 114, 97, 110, 103, 101, 115] [.i (-5), .u 3]
      = some (str_cat (str_cat (str_ncat (str_cat dest (int_repr (-5)))
          [32, 97, 112, 112, 108, 101, 115, 44, 32] 9) (do_fmt_u 3))
          [32, 111, 114, 97, 110, 103, 101, 115]) := rfl

/-! ### Tokenizer -/

theorem tok_skip_eq (delim : List Nat) (s : List Nat) :
    tok_skip delim s = s.dropWhile (fun c => decide (c ∈ delim)) := by
  induction s with
  | nil => rfl
  | cons c s ih =>
    simp only [tok_skip, List.dropWhile_cons]
    by_cases h : c ∈ delim
    · simp [h, ih]
    · simp [h]

theorem str_putc_spec (dest : str_t) (c : Nat) (hok : str_ok dest) (hc : c ≠ 0) :
    str_ok (str_putc dest c) ∧ (str_putc dest c).len = dest.len + 1 ∧
    content (str_putc dest c) = content dest ++ [c] := by
  obtain ⟨h1, h2⟩ := _str_putc_spec dest [c] hok
  have htw : List.takeWhile (fun x => decide (x ≠ 0)) [c] = [c] := by simp [hc]
  rw [htw] at h2
  refine ⟨h1, ?_, h2⟩
  show (_str_putc dest [c]).len = dest.len + 1
  have hl1 := content_length _ h1
  have hl0 := content_length _ hok
  rw [h2] at hl1
  simp at hl1
  omega

theorem tok_scan_spec (delim : List Nat) (s : List Nat) : ∀ token : str_t, str_ok token →
    0 ∉ s →
    str_ok (tok_scan delim token s).2 ∧
    content (tok_scan delim token s).2
      = content token ++ s.takeWhile (fun c => decide (c ∉ delim)) ∧
    (tok_scan delim token s).2.len
      = token.len + (s.takeWhile (fun c => decide (c ∉ delim))).length ∧
    (tok_scan delim token s).1 = s.dropWhile (fun c => decide (c ∉ delim)) := by
  induction s with
  | nil =>
    intro token hok _
    exact ⟨hok, by simp [tok_scan], by simp [tok_scan], by simp [tok_scan]⟩
  | cons c s ih =>
    intro token hok hnf
    simp only [tok_scan]
    by_cases h : c ∈ delim
    · rw [if_pos h]
      refine ⟨hok, ?_, ?_, ?_⟩ <;>
        simp [List.takeWhile_cons, List.dropWhile_cons, h]
    · rw [if_neg h]
      have hc : c ≠ 0 := fun hc0 => hnf (by simp [hc0])
      obtain ⟨hok2, hlen2, hcont2⟩ := str_putc_spec token c hok hc
      obtain ⟨ih1, ih2, ih3, ih4⟩ := ih (str_putc token c) hok2
        (fun hm => hnf (List.mem_cons_of_mem c hm))
      refine ⟨ih1, ?_, ?_, ?_⟩
      · rw [ih2, hcont2]
        simp [List.takeWhile_cons, h]
      · rw [ih3, hlen2]
        simp [List.takeWhile_cons, h]
        omega
      · rw [ih4]
        simp [List.dropWhile_cons, h]

/-! ### Line reader -/

theorem getline_loop_spec (s : List Nat) : ∀ out : str_t, str_ok out → 0 ∉ s →
    str_ok (getline_loop out s).1 ∧
    content (getline_loop out s).1
      = content out ++ s.takeWhile (fun c => decide (c ≠ 10)) ∧
    (getline_loop out s).1.len
      = out.len + (s.takeWhile (fun c => decide (c ≠ 10))).length ∧
    ((getline_loop out s).2.1 = true ↔ 10 ∈ s) ∧
    s.length = (s.takeWhile (fun c => decide (c ≠ 10))).length +
      (if (getline_loop out s).2.1 then 1 else 0) + (getline_loop out s).2.2.length := by
  induction s with
  | nil =>
    intro out hok _
    refine ⟨hok, by simp [getline_loop], by simp [getline_loop],
      by simp [getline_loop], by simp [getline_loop]⟩
  | cons c s ih =>
    intro out hok hnf
    simp only [getline_loop]
    split
    · rename_i h
      refine ⟨hok, by simp [List.takeWhile_cons, h], by simp [List.takeWhile_cons, h],
        by simp [h], ?_⟩
      simp [List.takeWhile_cons, h]
      omega
    · rename_i h
      have hc : c ≠ 0 := fun hc0 => hnf (by simp [hc0])
      obtain ⟨hok2, hlen2, hcont2⟩ := str_putc_spec out c hok hc
      obtain ⟨ih1, ih2, ih3, ih4, ih5⟩ := ih (str_putc out c) hok2
        (fun hm => hnf (List.mem_cons_of_mem c hm))
      refine ⟨ih1, ?_, ?_, ?_, ?_⟩
      · rw [ih2, hcont2]
        simp [List.takeWhile_cons, h]
      · rw [ih3, hlen2]
        simp [List.takeWhile_cons, h]
        omega
      · rw [ih4]
        constructor
        · intro hm
          exact List.mem_cons_of_mem c hm
        · intro hm
          rcases List.mem_cons.mp hm with h10 | h10
          · exact absurd h10.symm h
          · exact h10
      · rw [show List.takeWhile (fun c => decide (c ≠ 10)) (c :: s)
            = c :: List.takeWhile (fun c => decide (c ≠ 10)) s from by
          simp [List.takeWhile_cons, h]]
        simp only [List.length_cons]
        omega

/-! ### Sequences of public mutating operations -/

theorem applyOp_ok (s : str_t) (op : StrOp) (hok : str_ok s) (hwf : opWF op)
    (t : str_t) (ht : applyOp s op = some t) : str_ok t := by
  cases op with
  | cpy src => exact (Option.some.inj ht) ▸ (str_cpy_spec s src hok hwf).1
  | cpy_s src => exact (Option.some.inj ht) ▸ (str_cpy_s_spec s src hok hwf).1
  | ncpy src n => exact (Option.some.inj ht) ▸ (str_ncpy_spec s src n hok hwf).1
  | cat frags => exact (Option.some.inj ht) ▸ (str_append_spec frags s hok hwf).1
  | ncat src n => exact (Option.some.inj ht) ▸ (str_ncat_spec s src n hok hwf).1
  | putc cs => exact (Option.some.inj ht) ▸ (_str_putc_spec s cs hok).1
  | fmt f args => exact str_cat_fmt_ok s f args hok hwf.1 hwf.2 t ht

theorem runOps_ok (ops : List StrOp) : ∀ s : str_t, str_ok s → (∀ op ∈ ops, opWF op) →
    ∀ t, runOps s ops = some t → str_ok t := by
  induction ops with
  | nil =>
    intro s hok _ t ht
    simp only [runOps] at ht
    exact (Option.some.inj ht) ▸ hok
  | cons op ops ih =>
    intro s hok hwf t ht
    simp only [runOps] at ht
    split at ht
    · exact absurd ht (by simp)
    · rename_i u hu
      exact ih u (applyOp_ok s op hok (hwf op (by simp)) u hu)
        (fun o ho => hwf o (by simp [ho])) t ht

/-! ### The claims -/

/-- C1: every buffer produced by `str_new` or `str_dup` and mutated by any
finite sequence of the public operations (copy, bounded copy, buffer copy,
append of raw/buffer fragments, bounded append, character append, formatted
append) satisfies the three buffer invariants of `str_ok` after creation and
after each operation: terminator at `len`, no embedded zero byte before
`len`, and allocation at least `str_round_up (len + 1)`.  Intermediate
states are covered because every prefix of a well-formed operation sequence
is itself one. -/
theorem claim1_invariant_preservation (init : str_t)
    (hinit : init = str_new ∨ ∃ src, 0 ∉ src ∧ init = str_dup src)
    (ops : List StrOp) (hwf : ∀ op ∈ ops, opWF op)
    (s : str_t) (hrun : runOps init ops = some s) : str_ok s := by
  have hok0 : str_ok init := by
    rcases hinit with h | ⟨src, hnf, h⟩
    · rw [h]; exact str_new_ok
    · rw [h]; exact (str_dup_spec src hnf).1
  exact runOps_ok ops init hok0 hwf s hrun

theorem claim1_witness :
    ∃ s, runOps str_new [StrOp.cpy [104, 105], StrOp.fmt [37, 117] [.u 7]] = some s ∧
      str_ok s := by
  cases hr : runOps str_new [StrOp.cpy [104, 105], StrOp.fmt [37, 117] [.u 7]] with
  | none => exact absurd hr (by decide)
  | some s =>
    refine ⟨s, rfl, claim1_invariant_preservation str_new (Or.inl rfl) _ ?_ s hr⟩
    intro op hop
    rcases List.mem_cons.mp hop with h | h
    · rw [h]
      show (0 : Nat) ∉ [104, 105]
      decide
    · rcases List.mem_cons.mp h with h2 | h2
      · rw [h2]
        refine ⟨by decide, ?_⟩
        intro a ha
        rcases List.mem_cons.mp ha with h3 | h3
        · rw [h3]; trivial
        · simp at h3
      · simp at h2

/-- C2: `str_round_up n` is the least power of two that is at least
`2 * sizeofSizeT` and at least `n`; consequently it is monotone, always a
power of two, and always at least twice the machine word size. -/
theorem claim2_round_up (n : Nat) :
    (∃ k, str_round_up n = 2 ^ k) ∧
    2 * sizeofSizeT ≤ str_round_up n ∧
    n ≤ str_round_up n ∧
    (∀ p, (∃ k, p = 2 ^ k) → 2 * sizeofSizeT ≤ p → n ≤ p → str_round_up n ≤ p) ∧
    (∀ m, m ≤ n → str_round_up m ≤ str_round_up n) :=
  ⟨str_round_up_pow2 n, str_round_up_ge_min n, str_round_up_ge n,
    fun p hp hmin hnp => str_round_up_le n p hp hmin hnp,
    fun m hm => str_round_up_mono m n hm⟩

theorem claim2_witness : str_round_up 20 ≤ 32 ∧ 20 ≤ str_round_up 20 :=
  ⟨(claim2_round_up 20).2.2.2.1 32 ⟨5, rfl⟩ (by decide) (by decide),
    (claim2_round_up 20).2.2.1⟩

/-- C3: appending an ordered list of fragments (raw null-free byte strings
or valid buffers) leaves the destination's content equal to the
concatenation of its prior content with the fragments' bytes in order; in
particular `"ab"` plus fragments `"cd"` and a buffer holding `"ef"` gives
`"abcdef"`. -/
theorem claim3_append (dest : str_t) (frags : List Fragment) (hok : str_ok dest)
    (hwf : ∀ f ∈ frags, fragWF f) :
    content (str_append dest frags) = content dest ++ (frags.map Fragment.bytes).flatten ∧
    str_ok (str_append dest frags) ∧
    content (str_append (str_dup [97, 98]) [.raw [99, 100], .ref (str_dup [101, 102])])
      = [97, 98, 99, 100, 101, 102] := by
  obtain ⟨h1, h2⟩ := str_append_spec frags dest hok hwf
  exact ⟨h2, h1, by decide⟩

theorem claim3_witness :
    content (str_append (str_dup [97, 98]) [.raw [99, 100], .ref (str_dup [101, 102])])
      = content (str_dup [97, 98]) ++
        (([Fragment.raw [99, 100], Fragment.ref (str_dup [101, 102])]).map
          Fragment.bytes).flatten := by
  refine (claim3_append (str_dup [97, 98])
    [.raw [99, 100], .ref (str_dup [101, 102])] (by decide) ?_).1
  intro f hf
  rcases List.mem_cons.mp hf with h | h
  · rw [h]
    show (0 : Nat) ∉ [99, 100]
    decide
  · rcases List.mem_cons.mp h with h2 | h2
    · rw [h2]
      show str_ok (str_dup [101, 102])
      decide
    · simp at h2

/-- C4: the formatted append renders `%i`, `%I`, `%u`, `%U` as the exact
decimal representation of the argument (digits of the mathematical base-10
expansion, no leading zero except for 0 itself), with a leading minus sign
exactly for negative signed arguments; in particular
`"%i apples, %u oranges"` with arguments `-5` and `3` appends
`"-5 apples, 3 oranges"`. -/
theorem claim4_format (dest : str_t) (hok : str_ok dest) :
    (∀ m : Int, ∃ t, str_cat_fmt dest [37, 105] [.i m] = some t ∧
        content t = content dest ++ int_repr m) ∧
    (∀ m : Int, ∃ t, str_cat_fmt dest [37, 73] [.I m] = some t ∧
        content t = content dest ++ int_repr m) ∧
    (∀ k : Nat, ∃ t, str_cat_fmt dest [37, 117] [.u k] = some t ∧
        content t = content dest ++ decimalNat k) ∧
    (∀ k : Nat, ∃ t, str_cat_fmt dest [37, 85] [.U k] = some t ∧
        content t = content dest ++ decimalNat k) ∧
    (∀ m : Int, int_repr m
        = if m < 0 then 45 :: decimalNat m.natAbs else decimalNat m.natAbs) ∧
    (∀ k : Nat, Nat.ofDigits 10 (((decimalNat k).map (fun d => d - 48)).reverse) = k) ∧
    (∀ k : Nat, ∀ d ∈ decimalNat k, 48 ≤ d ∧ d < 58) ∧
    (∀ k : Nat, k ≠ 0 → (decimalNat k).headD 0 ≠ 48) ∧
    (∃ t, str_cat_fmt dest
        [37, 105, 32, 97, 112, 112, 108, 101, 115, 44, 32, 37, 117,
         32, 111, 114, 97, 110, 103, 101, 115] [.i (-5), .u 3] = some t ∧
      content t = content dest ++
        [45, 53, 32, 97, 112, 112, 108, 101, 115, 44, 32, 51, 32,
         111, 114, 97, 110, 103, 101, 115]) := by
  refine ⟨?_, ?_, ?_, ?_, ?_, decimalNat_ofDigits, decimalNat_digits,
    decimalNat_no_leading_zero, ?_⟩
  · intro m
    exact ⟨_, str_cat_fmt_single_i dest m,
      (str_cat_spec dest (int_repr m) hok (int_repr_nonzero m)).2.2⟩
  · intro m
    exact ⟨_, str_cat_fmt_single_I dest m,
      (str_cat_spec dest (int_repr m) hok (int_repr_nonzero m)).2.2⟩
  · intro k
    refine ⟨_, str_cat_fmt_single_u dest k, ?_⟩
    rw [(str_cat_spec dest (do_fmt_u k) hok (do_fmt_u_nonzero k)).2.2, do_fmt_u_eq]
  · intro k
    refine ⟨_, str_cat_fmt_single_U dest k, ?_⟩
    rw [(str_cat_spec dest (do_fmt_u k) hok (do_fmt_u_nonzero k)).2.2, do_fmt_u_eq]
  · intro m
    simp only [int_repr, do_fmt_u_eq]
  · refine ⟨_, str_cat_fmt_example_eq dest, ?_⟩
    have e1 := str_cat_spec dest (int_repr (-5)) hok (int_repr_nonzero (-5))
    have e2 := str_ncat_spec (str_cat dest (int_repr (-5)))
      [32, 97, 112, 112, 108, 101, 115, 44, 32] 9 e1.1 (by decide)
    have e3 := str_cat_spec
      (str_ncat (str_cat dest (int_repr (-5))) [32, 97, 112, 112, 108, 101, 115, 44, 32] 9)
      (do_fmt_u 3) e2.1 (do_fmt_u_nonzero 3)
    have e4 := str_cat_spec
      (str_cat (str_ncat (str_cat dest (int_repr (-5)))
        [32, 97, 112, 112, 108, 101, 115, 44, 32] 9) (do_fmt_u 3))
      [32, 111, 114, 97, 110, 103, 101, 115] e3.1 (by decide)
    rw [e4.2.2, e3.2.2, e2.2, e1.2.2,
      show int_repr (-5) = [45, 53] from by decide,
      show do_fmt_u 3 = [51] from by decide,
      show ([32, 97, 112, 112, 108, 101, 115, 44, 32] : List Nat).take 9
        = [32, 97, 112, 112, 108, 101, 115, 44, 32] from by decide]
    simp

theorem claim4_witness :
    str_ok (str_dup [122]) ∧
    (∃ t, str_cat_fmt (str_dup [122]) [37, 105] [.i (-5)] = some t ∧
      content t = content (str_dup [122]) ++ int_repr (-5)) :=
  ⟨by decide, (claim4_format (str_dup [122]) (by decide)).1 (-5)⟩

/-- C5: `str_getline` returns its count equal to the output's final length
plus one when the scan stopped at a newline byte (one occurs in the
remaining stream), and equal to the final length when it stopped at end of
stream; the count is the number of stream bytes consumed, and the output
content is the maximal newline-free prefix; in particular on `"foo\nbar"`
the first call yields `"foo"` with count 4 and the second `"bar"` with
count 3. -/
theorem claim5_getline (out : str_t) (input : List Nat) (hok : str_ok out)
    (hnf : 0 ∉ input) :
    str_ok (str_getline out input).1 ∧
    content (str_getline out input).1 = input.takeWhile (fun c => decide (c ≠ 10)) ∧
    (10 ∈ input → (str_getline out input).2.1 = (str_getline out input).1.len + 1) ∧
    (10 ∉ input → (str_getline out input).2.1 = (str_getline out input).1.len) ∧
    (str_getline out input).2.1 = input.length - (str_getline out input).2.2.length ∧
    (let e1 := str_getline str_new [102, 111, 111, 10, 98, 97, 114]
     let e2 := str_getline e1.1 e1.2.2
     content e1.1 = [102, 111, 111] ∧ e1.2.1 = 4 ∧
       content e2.1 = [98, 97, 114] ∧ e2.2.1 = 3) := by
  obtain ⟨hok0, hlen0, hcont0⟩ := str_cpy_spec out [] hok (by simp)
  simp only [List.length_nil] at hlen0
  obtain ⟨g1, g2, g3, g4, g5⟩ := getline_loop_spec input (str_cpy out []) hok0 hnf
  rw [hlen0] at g3
  rw [hcont0] at g2
  refine ⟨g1, ?_, ?_, ?_, ?_, by decide⟩
  · show content (getline_loop (str_cpy out []) input).1 = _
    rw [g2]
    simp
  · intro h10
    show (getline_loop (str_cpy out []) input).1.len +
        (if (getline_loop (str_cpy out []) input).2.1 then 1 else 0)
      = (getline_loop (str_cpy out []) input).1.len + 1
    rw [g4.mpr h10]
    simp
  · intro h10
    have hfalse : (getline_loop (str_cpy out []) input).2.1 = false := by
      cases hb : (getline_loop (str_cpy out []) input).2.1 with
      | false => rfl
      | true => exact absurd (g4.mp hb) h10
    show (getline_loop (str_cpy out []) input).1.len +
        (if (getline_loop (str_cpy out []) input).2.1 then 1 else 0)
      = (getline_loop (str_cpy out []) input).1.len
    rw [hfalse]
    simp
  · show (getline_loop (str_cpy out []) input).1.len +
        (if (getline_loop (str_cpy out []) input).2.1 then 1 else 0)
      = input.length - (getline_loop (str_cpy out []) input).2.2.length
    cases hb : (getline_loop (str_cpy out []) input).2.1 with
    | false =>
      rw [hb] at g5
      rw [if_neg Bool.false_ne_true] at g5 ⊢
      omega
    | true =>
      rw [hb] at g5
      rw [if_pos rfl] at g5 ⊢
      omega

theorem claim5_witness :
    str_ok (str_getline str_new [102, 111, 111, 10, 98, 97, 114]).1 :=
  (claim5_getline str_new [102, 111, 111, 10, 98, 97, 114] (by decide) (by decide)).1

/-- C6: on non-exhausted input, `str_tok` skips leading delimiter bytes,
stores into the token buffer exactly the maximal following run of
non-delimiter bytes, and returns the exhausted sentinel when that run is
empty, otherwise the unconsumed remainder starting at the delimiter that
ended the token; in particular tokenizing `"  a  b "` on spaces yields
`"a"`, then `"b"`, then the exhausted sentinel. -/
theorem claim6_tokenizer (input delim : List Nat) (token : str_t) (hok : str_ok token)
    (hin : 0 ∉ input) (hd : delim ≠ []) :
    str_ok (str_tok (some input) token delim).2 ∧
    content (str_tok (some input) token delim).2
      = (input.dropWhile (fun c => decide (c ∈ delim))).takeWhile
          (fun c => decide (c ∉ delim)) ∧
    (str_tok (some input) token delim).1
      = (if (input.dropWhile (fun c => decide (c ∈ delim))).takeWhile
              (fun c => decide (c ∉ delim)) = []
         then none
         else some ((input.dropWhile (fun c => decide (c ∈ delim))).dropWhile
              (fun c => decide (c ∉ delim)))) ∧
    (let t0 := str_new
     let r1 := str_tok (some [32, 32, 97, 32, 32, 98, 32]) t0 [32]
     let r2 := str_tok r1.1 r1.2 [32]
     let r3 := str_tok r2.1 r2.2 [32]
     content r1.2 = [97] ∧ content r2.2 = [98] ∧ r3.1 = none ∧ content r3.2 = []) := by
  obtain ⟨hok0, hlen0, hcont0⟩ := str_cpy_spec token [] hok (by simp)
  have hskip := tok_skip_eq delim input
  have hnf2 : 0 ∉ tok_skip delim input := by
    rw [hskip]
    intro hm
    exact hin ((List.dropWhile_sublist _).subset hm)
  obtain ⟨s1, s2, s3, s4⟩ :=
    tok_scan_spec delim (tok_skip delim input) (str_cpy token []) hok0 hnf2
  simp only [List.length_nil] at hlen0
  rw [hlen0] at s3
  rw [hcont0] at s2
  refine ⟨s1, ?_, ?_, by decide⟩
  · show content (tok_scan delim (str_cpy token []) (tok_skip delim input)).2 = _
    rw [← hskip, s2]
    simp
  · show (if (tok_scan delim (str_cpy token []) (tok_skip delim input)).2.len ≠ 0
        then some (tok_scan delim (str_cpy token []) (tok_skip delim input)).1 else none) = _
    rw [← hskip]
    by_cases he : (tok_skip delim input).takeWhile (fun c => decide (c ∉ delim)) = []
    · rw [if_neg (by rw [s3, he]; simp), if_pos he]
    · rw [if_pos (by rw [s3]; have := List.length_pos.mpr he; omega), if_neg he]
      rw [s4]

theorem claim6_witness :
    str_ok (str_tok (some [32, 32, 97, 32, 32, 98, 32]) str_new [32]).2 :=
  (claim6_tokenizer [32, 32, 97, 32, 32, 98, 32] [32] str_new
    (by decide) (by decide) (by decide)).1

/-- C7 counterexample: calling `str_tok` with the NULL sentinel and a token
buffer holding `"x"` does not leave the token buffer empty — the code
returns before clearing it, so its content is still `"x"`. -/
theorem claim7_counterexample :
    (str_tok none (str_dup [120]) [32]).1 = none ∧
    content (str_tok none (str_dup [120]) [32]).2 ≠ [] := by decide

/-- C7 (amended): calling `str_tok` with the exhausted sentinel as input
returns the exhausted sentinel and leaves the token buffer unchanged (not
cleared). -/
theorem claim7_amended (token : str_t) (delim : List Nat) :
    str_tok none token delim = (none, token) := rfl

/-- C8: the options parser does not treat every unrecognized `-` token as a
fatal `die` diagnostic: `"-conc"` is accepted by the `strstr` substring test
as a value-expecting tag, and the following value then violates the parser's
own `assert(!strcmp(argv[i-1], "-openings"))`; no `die` diagnostic is
produced on this input. -/
theorem claim8_substring_tag_bug :
    options_new ["p".toList, "-conc".toList, "x".toList]
      = .error .assertViolation ∧
    (∀ msg, options_new ["p".toList, "-conc".toList, "x".toList]
      ≠ .error (.die msg)) ∧
    "-conc".toList.headD ' ' = '-' ∧
    "-conc".toList ∉ ["-chess960".toList, "-random".toList, "-repeat".toList,
      "-concurrency".toList, "-games".toList, "-openings".toList] := by
  refine ⟨rfl, ?_, rfl, by decide⟩
  intro msg h
  have h2 : (Except.error OptFatal.assertViolation : Except OptFatal Options)
      = Except.error (OptFatal.die msg) := h
  injection h2 with h3
  exact OptFatal.noConfusion h3

/-- C9: the self-copy `str_cpy_s a a` of a valid buffer is the identity: no
reallocation happens (capacity is already sufficient), and the copy writes
back the very bytes that are there. -/
theorem claim9_self_copy (a : str_t) (hok : str_ok a) : str_cpy_s a a = a := by
  obtain ⟨hA, hL, hT, hZ⟩ := hok
  have hnr : ¬ (a.alloc < str_round_up (a.len + 1)) := by omega
  have hres : str_resize a a.len = a := by
    unfold str_resize
    dsimp only
    rw [if_neg hnr, if_neg hnr, list_set_self_of_getD a.buf a.len hT]
  show do_str_cpy a a.buf a.len = a
  unfold do_str_cpy
  dsimp only
  rw [hres]
  have hmc : memcpyAt a.buf 0 (a.buf.take (a.len + 1)) = a.buf := by
    rw [memcpyAt_zero]
    have hlb : a.len + 1 ≤ a.buf.length := by
      have := str_round_up_ge (a.len + 1)
      omega
    have hl : (a.buf.take (a.len + 1)).length = a.len + 1 := by
      simp
      omega
    rw [hl]
    exact List.take_append_drop _ _
  rw [hmc]

theorem claim9_witness :
    str_ok (str_dup [104, 105]) ∧
    str_cpy_s (str_dup [104, 105]) (str_dup [104, 105]) = str_dup [104, 105] :=
  ⟨by decide, claim9_self_copy (str_dup [104, 105]) (by decide)⟩

/-- C10: after `str_del` every field of the handle is zeroed (length 0,
capacity 0, storage empty, the model of a null pointer), so a second
`str_del` on the same handle is a no-op on an already-zero handle. -/
theorem claim10_destroy (s : str_t) :
    (str_del s).len = 0 ∧ (str_del s).alloc = 0 ∧ (str_del s).buf = [] ∧
    str_del (str_del s) = str_del s :=
  ⟨rfl, rfl, rfl, rfl⟩

end CChessCli
